import Mathlib

/-!
# Verification of the sp-cid CID codec

Shallow embedding of the `sp-cid` crate's `Cid` type (src/cid.rs) and its
error taxonomy (src/error.rs), together with models of the collaborators the
code consumes: the version model (`version.rs`, not included under src/), the
crate-level varint reader (`lib.rs`, not included under src/), and the
external digest-container (`sp_multihash`), multibase and byte-cursor crates,
modelled at the interface boundary described by the specification.

Bytes are natural numbers; every read of a byte from a cursor reduces it
modulo 256, reflecting that the Rust cursor stores `u8` values.  Fallible
operations return `Except`; the one `expect` (a potential panic) in
`Cid::read_bytes` is reflected by an `Option` wrapper, with `none` standing
for a panic.
-/

namespace SpCid

/-- Decidable equality for `Except`, so that concrete decoder results can be
compared by `decide`. -/
instance {ε α : Type} [DecidableEq ε] [DecidableEq α] :
    DecidableEq (Except ε α)
  | .ok a, .ok b =>
    if h : a = b then .isTrue (by rw [h]) else .isFalse (by simp [h])
  | .ok _, .error _ => .isFalse (by simp)
  | .error _, .ok _ => .isFalse (by simp)
  | .error a, .error b =>
    if h : a = b then .isTrue (by rw [h]) else .isFalse (by simp [h])

/-- The error enumeration from src/error.rs (the std-only `Io` variant is
behind a feature gate and cannot arise from the in-memory cursor). -/
inductive Error where
  | unknownCodec
  | inputTooShort
  | parsingError
  | invalidCidVersion
  | invalidCidV0Codec
  | invalidCidV0Multihash
  | invalidCidV0Base
  | varIntDecodeError
  deriving DecidableEq

/-- The CID version enumeration.
Modelled from the spec: `version.rs` is not under src/; §3 of the spec defines
a closed enumeration `{V0, V1}` with numeric codes 0 and 1. -/
inductive Version where
  | v0
  | v1
  deriving DecidableEq

/-- Modelled from the spec: conversion from a numeric code to a `Version`
(`version.rs`, not under src/): 0 gives V0, 1 gives V1, anything else fails
with the "invalid version" condition. -/
def Version.fromCode (n : Nat) : Except Error Version :=
  if n = 0 then .ok .v0
  else if n = 1 then .ok .v1
  else .error .invalidCidVersion

/-- Modelled from the spec: the total inverse mapping from a `Version` to its
numeric code (`version.rs`, not under src/). -/
def Version.toCode : Version → Nat
  | .v0 => 0
  | .v1 => 1

/-- Modelled from the spec: the legacy text-form heuristic of `version.rs`
(not under src/): a version-0 text identifier is exactly 46 characters long
and starts with the characters `Qm`. -/
def Version.isV0Str (s : List Char) : Bool :=
  s.length == 46 && s.take 2 == ['Q', 'm']

/-- Unsigned LEB128 encoding of `n`, at most `fuel` base-128 digits.  The
encoder is only used on `u64` values, which need at most 10 digits. -/
def varintEncodeAux : Nat → Nat → List Nat
  | 0, _ => []
  | fuel + 1, n =>
    if n < 128 then [n] else (n % 128 + 128) :: varintEncodeAux fuel (n / 128)

/-- Modelled from the spec: the varint collaborator's encoder
(`unsigned_varint::encode::u64`): unsigned LEB128 of a `u64`. -/
def varintEncode (n : Nat) : List Nat :=
  varintEncodeAux 10 n

/-- One step of the crate's varint reader: read up to `fuel` bytes from the
front of `bs`, accumulating the value; a byte with the high bit clear ends the
number; running out of input or of buffer space, or overflowing 64 bits,
fails with a varint-decode error. -/
def varintReadLoop : Nat → List Nat → Nat → Nat → Except Error (Nat × List Nat)
  | 0, _, _, _ => .error .varIntDecodeError
  | _ + 1, [], _, _ => .error .varIntDecodeError
  | fuel + 1, b :: bs, acc, shift =>
    if b % 256 < 128 then
      if acc + b % 256 * 2 ^ shift < 2 ^ 64 then .ok (acc + b % 256 * 2 ^ shift, bs)
      else .error .varIntDecodeError
    else varintReadLoop fuel bs (acc + (b % 256 - 128) * 2 ^ shift) (shift + 7)

/-- Modelled from the spec: `varint_read_u64` from the crate root (`lib.rs`,
not under src/): decode a `u64` from the front of a byte cursor, failing on
malformed or truncated input.  The cursor is represented by the unread bytes;
the result pairs the value with the remaining bytes. -/
def varintRead (bs : List Nat) : Except Error (Nat × List Nat) :=
  varintReadLoop 10 bs 0 0

/-- Modelled from the spec: the byte cursor's `read_exact`: take exactly `n`
bytes from the front, failing if fewer are available. -/
def readExact (n : Nat) (bs : List Nat) : Except Unit (List Nat × List Nat) :=
  if n ≤ bs.length then .ok (bs.take n, bs.drop n) else .error ()

/-- Modelled from the spec: the digest container of the external
`sp_multihash` collaborator (§6): a hash-function code together with the raw
digest bytes; the declared length is the length of the digest. -/
structure Multihash where
  code : Nat
  digest : List Nat
  deriving DecidableEq

/-- Modelled from the spec: `Multihash::wrap(code, bytes)` for size bound `S`:
fails when the digest does not fit the size bound. -/
def Multihash.wrap (S : Nat) (code : Nat) (digest : List Nat) :
    Except Unit Multihash :=
  if digest.length ≤ S then .ok ⟨code, digest⟩ else .error ()

/-- Modelled from the spec: the digest container's self-delimiting binary
form: varint code, varint length, digest bytes. -/
def Multihash.toBytes (mh : Multihash) : List Nat :=
  varintEncode mh.code ++ varintEncode mh.digest.length ++ mh.digest

/-- Modelled from the spec: `Multihash::read` for size bound `S`: read a
varint code, a varint length, check the length against the size bound, then
read exactly that many digest bytes. -/
def Multihash.read (S : Nat) (bs : List Nat) :
    Except Unit (Multihash × List Nat) :=
  match varintRead bs with
  | .error _ => .error ()
  | .ok (code, r1) =>
    match varintRead r1 with
    | .error _ => .error ()
    | .ok (size, r2) =>
      if S < size then .error ()
      else
        match readExact size r2 with
        | .error _ => .error ()
        | .ok (digest, rest) => .ok (⟨code, digest⟩, rest)

/-- Modelled from the spec: `Multihash::write` appends the container's binary
form to a growable in-memory cursor; for the `Vec`-backed cursor this always
succeeds. -/
def Multihash.write (mh : Multihash) (w : List Nat) : Except Unit (List Nat) :=
  .ok (w ++ mh.toBytes)

/-- DAG-PB multicodec code (src/cid.rs). -/
def DAG_PB : Nat := 0x70

/-- The SHA2-256 multicodec code (src/cid.rs). -/
def SHA2_256 : Nat := 0x12

/-- Representation of a CID (src/cid.rs): version, content-type codec, and
digest container. -/
structure Cid where
  version : Version
  codec : Nat
  hash : Multihash
  deriving DecidableEq

/-- `Cid::new_v0` (src/cid.rs): requires a SHA2-256 digest container. -/
def Cid.new_v0 (hash : Multihash) : Except Error Cid :=
  if hash.code ≠ SHA2_256 then .error .invalidCidV0Multihash
  else .ok ⟨.v0, DAG_PB, hash⟩

/-- `Cid::new_v1` (src/cid.rs): total. -/
def Cid.new_v1 (codec : Nat) (hash : Multihash) : Cid :=
  ⟨.v1, codec, hash⟩

/-- `Cid::new` (src/cid.rs): dispatch on the version. -/
def Cid.new (version : Version) (codec : Nat) (hash : Multihash) :
    Except Error Cid :=
  match version with
  | .v0 =>
    if codec ≠ DAG_PB then .error .invalidCidV0Codec
    else Cid.new_v0 hash
  | .v1 => .ok (Cid.new_v1 codec hash)

/-- `Cid::read_bytes` (src/cid.rs) over the cursor's unread bytes, for digest
size bound `S`.  The result is wrapped in `Option`: `none` models the panic
of the `expect` on `Multihash::wrap` in the legacy branch. -/
def Cid.read_bytes (S : Nat) (bs : List Nat) : Option (Except Error Cid) :=
  match varintRead bs with
  | .error e => some (.error e)
  | .ok (version, r1) =>
    match varintRead r1 with
    | .error e => some (.error e)
    | .ok (codec, r2) =>
      if version = 0x12 ∧ codec = 0x20 then
        match readExact 32 r2 with
        | .error _ => some (.error .varIntDecodeError)
        | .ok (digest, _) =>
          match Multihash.wrap S version digest with
          | .error _ => none
          | .ok mh => some (Cid.new_v0 mh)
      else
        match Version.fromCode version with
        | .error _ => some (.error .varIntDecodeError)
        | .ok ver =>
          match Multihash.read S r2 with
          | .error _ => some (.error .varIntDecodeError)
          | .ok (mh, _) => some (Cid.new ver codec mh)

/-- Modelled from the spec: the byte cursor's `write_all` on the `Vec`-backed
in-memory cursor appends the bytes and always succeeds. -/
def writeAll (w new : List Nat) : Except Unit (List Nat) :=
  .ok (w ++ new)

/-- `Cid::write_bytes_v1` (src/cid.rs): varint version, varint codec, then
the digest container's own binary form. -/
def Cid.write_bytes_v1 (c : Cid) (w : List Nat) : Except Error (List Nat) :=
  match writeAll w (varintEncode c.version.toCode) with
  | .error _ => .error .invalidCidVersion
  | .ok w1 =>
    match writeAll w1 (varintEncode c.codec) with
    | .error _ => .error .invalidCidV0Codec
    | .ok w2 =>
      match c.hash.write w2 with
      | .error _ => .error .varIntDecodeError
      | .ok w3 => .ok w3

/-- `Cid::write_bytes` (src/cid.rs): V0 writes only the digest container's
binary form, V1 delegates to the V1 writer. -/
def Cid.write_bytes (c : Cid) (w : List Nat) : Except Error (List Nat) :=
  match c.version with
  | .v0 =>
    match c.hash.write w with
    | .error _ => .error .varIntDecodeError
    | .ok w1 => .ok w1
  | .v1 =>
    match c.write_bytes_v1 w with
    | .error _ => .error .varIntDecodeError
    | .ok w1 => .ok w1

/-- `Cid::to_bytes` (src/cid.rs): the write path applied to a fresh buffer;
the `unwrap` is modelled by defaulting to `[]` on the (unreachable) error
branch. -/
def Cid.to_bytes (c : Cid) : List Nat :=
  match c.write_bytes [] with
  | .ok bs => bs
  | .error _ => []

/-- Well-formedness of a `Cid` value for digest size bound `S`: the numeric
fields fit in `u64`, the digest is made of bytes and fits the size bound, and
a V0 value carries the DAG-PB codec and a SHA2-256 container, exactly as the
validated constructors guarantee. -/
def Cid.Valid (S : Nat) (c : Cid) : Prop :=
  c.codec < 2 ^ 64 ∧ c.hash.code < 2 ^ 64 ∧
    c.hash.digest.length ≤ S ∧ c.hash.digest.length < 2 ^ 64 ∧
    (∀ b ∈ c.hash.digest, b < 256) ∧
    (c.version = .v0 → c.codec = DAG_PB ∧ c.hash.code = SHA2_256)

instance (S : Nat) (c : Cid) : Decidable (c.Valid S) := by
  unfold Cid.Valid; infer_instance

/-! ## Multibase collaborator

Modelled from the spec (§6): `encode(base, bytes)` is total and prefixes a
marker character; `decode(text)` reads the marker and decodes the rest;
`Base58Btc` additionally has direct encode/decode without the marker.  The
base alphabets and markers are the standard multibase ones.  Encoders come in
three shapes: identity, bit-group bases (powers of two) and big-number bases
(base 10 and the base-58 alphabets). -/

/-- Big-endian base-`b` digits of `n`, assuming `n < b ^ fuel` (fuel-bounded
so that the definition is structural). -/
def natDigitsBE (b : Nat) : Nat → Nat → List Nat
  | 0, _ => []
  | fuel + 1, n => if n = 0 then [] else natDigitsBE b fuel (n / b) ++ [n % b]

/-- The value of big-endian base-`b` digits. -/
def beVal (b : Nat) (l : List Nat) : Nat :=
  l.foldl (fun a d => a * b + d) 0

/-- Look every character of `cs` up in `alpha`, giving the digit values. -/
def charsToVals (alpha : List Char) (cs : List Char) : Option (List Nat) :=
  match cs with
  | [] => some []
  | c :: rest =>
    match alpha.findIdx? (fun x => x == c) with
    | none => none
    | some v =>
      match charsToVals alpha rest with
      | none => none
      | some vs => some (v :: vs)

/-- Big-number base encoder (base-x style): leading zero bytes become leading
zero-digit characters; the rest is the big-endian base-`|alpha|`
representation of the byte string's value. -/
def bignumEncode (alpha : List Char) (bs : List Nat) : List Char :=
  let z := (bs.takeWhile (fun b => b == 0)).length
  let n := beVal 256 bs
  List.replicate z (alpha.getD 0 ' ') ++
    (natDigitsBE alpha.length (8 * bs.length) n).map (fun d => alpha.getD d ' ')

/-- Big-number base decoder: any character outside the alphabet fails;
leading zero-digit characters become leading zero bytes. -/
def bignumDecode (alpha : List Char) (cs : List Char) :
    Except Unit (List Nat) :=
  match charsToVals alpha cs with
  | none => .error ()
  | some vals =>
    let z := (cs.takeWhile (fun c => c == alpha.getD 0 ' ')).length
    .ok (List.replicate z 0 ++ natDigitsBE 256 cs.length (beVal alpha.length vals))

/-- The `w` bits of `n`, most significant first. -/
def natToBits : Nat → Nat → List Bool
  | 0, _ => []
  | w + 1, n => natToBits w (n / 2) ++ [n % 2 == 1]

/-- The value of a bit string, most significant first. -/
def bitsToNat (l : List Bool) : Nat :=
  l.foldl (fun a b => 2 * a + (if b then 1 else 0)) 0

/-- The bits of a byte string, most significant first within each byte. -/
def bytesToBits (bs : List Nat) : List Bool :=
  (bs.map (natToBits 8)).flatten

/-- Split a bit string into groups of `k + 1` bits, padding the final group
with zero bits (fuel-bounded structural recursion; `fuel` at least the length
of the list). -/
def chunkPadAux (k : Nat) : Nat → List Bool → List (List Bool)
  | 0, _ => []
  | fuel + 1, l =>
    if l.isEmpty then []
    else (l.take (k + 1) ++ List.replicate (k + 1 - l.length) false) ::
      chunkPadAux k fuel (l.drop (k + 1))

/-- Split a bit string into groups of `k + 1` bits, padding the last group. -/
def chunkPad (k : Nat) (l : List Bool) : List (List Bool) :=
  chunkPadAux k l.length l

/-- Group a bit string into bytes, dropping a trailing incomplete group
(fuel-bounded structural recursion). -/
def bitsToBytesAux : Nat → List Bool → List Nat
  | 0, _ => []
  | fuel + 1, l =>
    if 8 ≤ l.length then bitsToNat (l.take 8) :: bitsToBytesAux fuel (l.drop 8)
    else []

/-- Group a bit string into bytes, dropping a trailing incomplete group. -/
def bitsToBytes (l : List Bool) : List Nat :=
  bitsToBytesAux l.length l

/-- Bit-group base encoder (RFC 4648 style, unpadded): `k + 1` bits per
character. -/
def bitsEncode (k : Nat) (alpha : List Char) (bs : List Nat) : List Char :=
  (chunkPad k (bytesToBits bs)).map (fun g => alpha.getD (bitsToNat g) ' ')

/-- Bit-group base decoder (unpadded): any character outside the alphabet
fails; trailing bits that do not fill a byte are dropped. -/
def bitsDecode (k : Nat) (alpha : List Char) (cs : List Char) :
    Except Unit (List Nat) :=
  match charsToVals alpha cs with
  | none => .error ()
  | some vals => .ok (bitsToBytes ((vals.map (natToBits (k + 1))).flatten))

/-- Pad an encoded block sequence with `=` up to a multiple of `block`
characters (the padded RFC 4648 variants). -/
def padOut (block : Nat) (cs : List Char) : List Char :=
  cs ++ List.replicate ((block - cs.length % block) % block) '='

/-- Strip trailing `=` padding before decoding a padded variant. -/
def stripPad (cs : List Char) : List Char :=
  (cs.reverse.dropWhile (fun c => c == '=')).reverse

/-- The multibase `Base` enumeration (external multibase crate, §6). -/
inductive Base where
  | identity
  | base2
  | base8
  | base10
  | base16Lower
  | base16Upper
  | base32Lower
  | base32Upper
  | base32PadLower
  | base32PadUpper
  | base32HexLower
  | base32HexUpper
  | base32HexPadLower
  | base32HexPadUpper
  | base32Z
  | base58Flickr
  | base58Btc
  | base64
  | base64Pad
  | base64Url
  | base64UrlPad
  deriving DecidableEq

def B2_ALPHA : List Char := "01".toList
def B8_ALPHA : List Char := "01234567".toList
def B10_ALPHA : List Char := "0123456789".toList
def B16L_ALPHA : List Char := "0123456789abcdef".toList
def B16U_ALPHA : List Char := "0123456789ABCDEF".toList
def B32L_ALPHA : List Char := "abcdefghijklmnopqrstuvwxyz234567".toList
def B32U_ALPHA : List Char := "ABCDEFGHIJKLMNOPQRSTUVWXYZ234567".toList
def B32HL_ALPHA : List Char := "0123456789abcdefghijklmnopqrstuv".toList
def B32HU_ALPHA : List Char := "0123456789ABCDEFGHIJKLMNOPQRSTUV".toList
def B32Z_ALPHA : List Char := "ybndrfg8ejkmcpqxot1uwisza345h769".toList
def B58F_ALPHA : List Char :=
  "123456789abcdefghijkmnopqrstuvwxyzABCDEFGHJKLMNPQRSTUVWXYZ".toList
def B58BTC_ALPHA : List Char :=
  "123456789ABCDEFGHJKLMNPQRSTUVWXYZabcdefghijkmnopqrstuvwxyz".toList
def B64_ALPHA : List Char :=
  "ABCDEFGHIJKLMNOPQRSTUVWXYZabcdefghijklmnopqrstuvwxyz0123456789+/".toList
def B64URL_ALPHA : List Char :=
  "ABCDEFGHIJKLMNOPQRSTUVWXYZabcdefghijklmnopqrstuvwxyz0123456789-_".toList

/-- The multibase marker character of each base. -/
def Base.code : Base → Char
  | .identity => Char.ofNat 0
  | .base2 => '0'
  | .base8 => '7'
  | .base10 => '9'
  | .base16Lower => 'f'
  | .base16Upper => 'F'
  | .base32Lower => 'b'
  | .base32Upper => 'B'
  | .base32PadLower => 'c'
  | .base32PadUpper => 'C'
  | .base32HexLower => 'v'
  | .base32HexUpper => 'V'
  | .base32HexPadLower => 't'
  | .base32HexPadUpper => 'T'
  | .base32Z => 'h'
  | .base58Flickr => 'Z'
  | .base58Btc => 'z'
  | .base64 => 'm'
  | .base64Pad => 'M'
  | .base64Url => 'u'
  | .base64UrlPad => 'U'

/-- The base identified by a marker character, if any. -/
def baseFromCode (c : Char) : Option Base :=
  if c = Char.ofNat 0 then some .identity
  else if c = '0' then some .base2
  else if c = '7' then some .base8
  else if c = '9' then some .base10
  else if c = 'f' then some .base16Lower
  else if c = 'F' then some .base16Upper
  else if c = 'b' then some .base32Lower
  else if c = 'B' then some .base32Upper
  else if c = 'c' then some .base32PadLower
  else if c = 'C' then some .base32PadUpper
  else if c = 'v' then some .base32HexLower
  else if c = 'V' then some .base32HexUpper
  else if c = 't' then some .base32HexPadLower
  else if c = 'T' then some .base32HexPadUpper
  else if c = 'h' then some .base32Z
  else if c = 'Z' then some .base58Flickr
  else if c = 'z' then some .base58Btc
  else if c = 'm' then some .base64
  else if c = 'M' then some .base64Pad
  else if c = 'u' then some .base64Url
  else if c = 'U' then some .base64UrlPad
  else none

/-- Encode raw bytes in a base, without the multibase marker. -/
def baseEncodeData : Base → List Nat → List Char
  | .identity, bs => bs.map (fun b => Char.ofNat (b % 256))
  | .base2, bs => bitsEncode 0 B2_ALPHA bs
  | .base8, bs => bitsEncode 2 B8_ALPHA bs
  | .base10, bs => bignumEncode B10_ALPHA bs
  | .base16Lower, bs => bitsEncode 3 B16L_ALPHA bs
  | .base16Upper, bs => bitsEncode 3 B16U_ALPHA bs
  | .base32Lower, bs => bitsEncode 4 B32L_ALPHA bs
  | .base32Upper, bs => bitsEncode 4 B32U_ALPHA bs
  | .base32PadLower, bs => padOut 8 (bitsEncode 4 B32L_ALPHA bs)
  | .base32PadUpper, bs => padOut 8 (bitsEncode 4 B32U_ALPHA bs)
  | .base32HexLower, bs => bitsEncode 4 B32HL_ALPHA bs
  | .base32HexUpper, bs => bitsEncode 4 B32HU_ALPHA bs
  | .base32HexPadLower, bs => padOut 8 (bitsEncode 4 B32HL_ALPHA bs)
  | .base32HexPadUpper, bs => padOut 8 (bitsEncode 4 B32HU_ALPHA bs)
  | .base32Z, bs => bitsEncode 4 B32Z_ALPHA bs
  | .base58Flickr, bs => bignumEncode B58F_ALPHA bs
  | .base58Btc, bs => bignumEncode B58BTC_ALPHA bs
  | .base64, bs => bitsEncode 5 B64_ALPHA bs
  | .base64Pad, bs => padOut 4 (bitsEncode 5 B64_ALPHA bs)
  | .base64Url, bs => bitsEncode 5 B64URL_ALPHA bs
  | .base64UrlPad, bs => padOut 4 (bitsEncode 5 B64URL_ALPHA bs)

/-- Decode text in a base, without the multibase marker. -/
def baseDecodeData : Base → List Char → Except Unit (List Nat)
  | .identity, cs => .ok (cs.map Char.toNat)
  | .base2, cs => bitsDecode 0 B2_ALPHA cs
  | .base8, cs => bitsDecode 2 B8_ALPHA cs
  | .base10, cs => bignumDecode B10_ALPHA cs
  | .base16Lower, cs => bitsDecode 3 B16L_ALPHA cs
  | .base16Upper, cs => bitsDecode 3 B16U_ALPHA cs
  | .base32Lower, cs => bitsDecode 4 B32L_ALPHA cs
  | .base32Upper, cs => bitsDecode 4 B32U_ALPHA cs
  | .base32PadLower, cs => bitsDecode 4 B32L_ALPHA (stripPad cs)
  | .base32PadUpper, cs => bitsDecode 4 B32U_ALPHA (stripPad cs)
  | .base32HexLower, cs => bitsDecode 4 B32HL_ALPHA cs
  | .base32HexUpper, cs => bitsDecode 4 B32HU_ALPHA cs
  | .base32HexPadLower, cs => bitsDecode 4 B32HL_ALPHA (stripPad cs)
  | .base32HexPadUpper, cs => bitsDecode 4 B32HU_ALPHA (stripPad cs)
  | .base32Z, cs => bitsDecode 4 B32Z_ALPHA cs
  | .base58Flickr, cs => bignumDecode B58F_ALPHA cs
  | .base58Btc, cs => bignumDecode B58BTC_ALPHA cs
  | .base64, cs => bitsDecode 5 B64_ALPHA cs
  | .base64Pad, cs => bitsDecode 5 B64_ALPHA (stripPad cs)
  | .base64Url, cs => bitsDecode 5 B64URL_ALPHA cs
  | .base64UrlPad, cs => bitsDecode 5 B64URL_ALPHA (stripPad cs)

/-- Modelled from the spec: `multibase::encode`: marker character followed by
the base encoding of the bytes; total. -/
def multibaseEncode (b : Base) (bs : List Nat) : List Char :=
  b.code :: baseEncodeData b bs

/-- Modelled from the spec: `multibase::decode`: read the marker character,
then decode the rest in the identified base; fails on an empty string, an
unknown marker, or a data decode failure. -/
def multibaseDecode (cs : List Char) : Except Unit (Base × List Nat) :=
  match cs with
  | [] => .error ()
  | m :: rest =>
    match baseFromCode m with
    | none => .error ()
    | some b =>
      match baseDecodeData b rest with
      | .error _ => .error ()
      | .ok d => .ok (b, d)

/-! ## Text encoding and decoding of CIDs (src/cid.rs) -/

/-- `Cid::to_string_v0` (src/cid.rs): base58-BTC of the digest container's
binary form, without a multibase marker. -/
def Cid.to_string_v0 (c : Cid) : List Char :=
  baseEncodeData .base58Btc c.hash.toBytes

/-- `Cid::to_string_v1` (src/cid.rs): multibase lowercase base32 of the full
binary form. -/
def Cid.to_string_v1 (c : Cid) : List Char :=
  multibaseEncode .base32Lower c.to_bytes

/-- The `Display` implementation for `Cid` (src/cid.rs): the
version-appropriate textual rendering. -/
def Cid.toText (c : Cid) : List Char :=
  match c.version with
  | .v0 => c.to_string_v0
  | .v1 => c.to_string_v1

/-- `Cid::to_string_of_base` (src/cid.rs): V0 admits only base58-BTC; V1
applies the requested multibase encoding to the full binary form. -/
def Cid.to_string_of_base (c : Cid) (base : Base) : Except Error (List Char) :=
  match c.version with
  | .v0 =>
    if base = Base.base58Btc then .ok c.to_string_v0
    else .error .invalidCidV0Base
  | .v1 => .ok (multibaseEncode base c.to_bytes)

/-- The `/ipfs/` gateway delimiter (src/cid.rs). -/
def IPFS_DELIMITER : List Char := "/ipfs/".toList

/-- The remainder of `s` after the first occurrence of `/ipfs/`, if there is
one (the `str::find` + slice in `TryFrom<&str>` in src/cid.rs). -/
def findIpfs : List Char → Option (List Char)
  | [] => none
  | c :: rest =>
    if IPFS_DELIMITER.isPrefixOf (c :: rest) then some ((c :: rest).drop 6)
    else findIpfs rest

/-- Strip everything up to and including the first `/ipfs/`, when present. -/
def stripIpfs (s : List Char) : List Char :=
  match findIpfs s with
  | some r => r
  | none => s

/-- `TryFrom<&[u8]> for Cid` (src/cid.rs): read from a fresh cursor over the
bytes. -/
def Cid.tryFromBytes (S : Nat) (bs : List Nat) : Option (Except Error Cid) :=
  Cid.read_bytes S bs

/-- `TryFrom<&str> for Cid` (src/cid.rs): strip a gateway prefix, check the
minimum length, route by the legacy text heuristic, decode the text to bytes
and feed them to the binary decoder. -/
def Cid.tryFromStr (S : Nat) (s : List Char) : Option (Except Error Cid) :=
  let hash := stripIpfs s
  if hash.length < 2 then some (.error .inputTooShort)
  else if Version.isV0Str hash then
    match baseDecodeData .base58Btc hash with
    | .ok d => Cid.tryFromBytes S d
    | .error _ => some (.error .parsingError)
  else
    match multibaseDecode hash with
    | .ok (_, d) => Cid.tryFromBytes S d
    | .error _ => some (.error .varIntDecodeError)

/-! ## Concrete values used by witnesses and counterexamples -/

/-- A V0 `Cid` with a SHA2-256 code but an empty digest: admitted by the
constructors, but its binary form `[0x12, 0x00]` does not decode back. -/
def cexCid : Cid := ⟨.v0, DAG_PB, ⟨SHA2_256, []⟩⟩

/-- A small V1 `Cid` (raw codec, identity digest container). -/
def sampleCid : Cid := ⟨.v1, 0x55, ⟨0, []⟩⟩

/-- The SHA2-256 digest of `"foo"`, as used by the crate's doc test. -/
def fooDigest : List Nat :=
  [0x2c, 0x26, 0xb4, 0x6b, 0x68, 0xff, 0xc6, 0x8f, 0xf9, 0x9b, 0x45, 0x3c,
   0x1d, 0x30, 0x41, 0x34, 0x13, 0x42, 0x2d, 0x70, 0x64, 0x83, 0xbf, 0xa0,
   0xf9, 0x8a, 0x5e, 0x88, 0x62, 0x66, 0xe7, 0xae]

/-- A well-formed V0 `Cid` over a genuine 32-byte digest. -/
def fooV0 : Cid := ⟨.v0, DAG_PB, ⟨SHA2_256, fooDigest⟩⟩

/-- A well-formed V1 `Cid` over the same digest (the doc-test value). -/
def fooV1 : Cid := ⟨.v1, 0x55, ⟨SHA2_256, fooDigest⟩⟩

/-- A binary input in the legacy V0 shape: `0x12 0x20` then 32 raw bytes. -/
def legacyInput : List Nat := 0x12 :: 0x20 :: List.replicate 32 0xab

/-- A 46-character text starting with `Qm` that is not valid base58 (the
character `0` is outside the base58-BTC alphabet). -/
def badB58Text : List Char := 'Q' :: 'm' :: List.replicate 44 '0'

/-- The default textual rendering of `sampleCid`. -/
def sampleText : List Char := sampleCid.toText

/-- A prefix that ends in `/ipfs/` but also contains an earlier `/ipfs/`
occurrence. -/
def adverseGateway : List Char := "/ipfs/x".toList ++ IPFS_DELIMITER

/-! ## Varint encoder/decoder round trip -/

theorem varintEncodeAux_byte_lt :
    ∀ fuel n, ∀ b ∈ varintEncodeAux fuel n, b < 256 := by
  intro fuel
  induction fuel with
  | zero => intro n b hb; simp [varintEncodeAux] at hb
  | succ fuel ih =>
    intro n b hb
    by_cases h : n < 128
    · simp [varintEncodeAux, h] at hb
      omega
    · simp [varintEncodeAux, h] at hb
      rcases hb with hb | hb
      · omega
      · exact ih _ b hb

theorem varintEncode_byte_lt (n : Nat) : ∀ b ∈ varintEncode n, b < 256 :=
  varintEncodeAux_byte_lt 10 n

theorem varintReadLoop_encodeAux :
    ∀ fuel n acc shift rest, n < 2 ^ (7 * (fuel + 1)) →
      acc + n * 2 ^ shift < 2 ^ 64 →
      varintReadLoop (fuel + 1) (varintEncodeAux (fuel + 1) n ++ rest) acc shift =
        .ok (acc + n * 2 ^ shift, rest) := by
  have step : ∀ fuel n acc shift rest, n < 128 →
      acc + n * 2 ^ shift < 2 ^ 64 →
      varintReadLoop (fuel + 1) (varintEncodeAux (fuel + 1) n ++ rest) acc shift =
        .ok (acc + n * 2 ^ shift, rest) := by
    intro fuel n acc shift rest h128 hfit
    have henc : varintEncodeAux (fuel + 1) n = [n] := by
      rw [varintEncodeAux, if_pos h128]
    have hmod : n % 256 = n := Nat.mod_eq_of_lt (by omega)
    rw [henc, List.cons_append, List.nil_append, varintReadLoop, hmod,
      if_pos h128, if_pos hfit]
  intro fuel
  induction fuel with
  | zero =>
    intro n acc shift rest hn hfit
    have h128 : n < 128 := by norm_num at hn; omega
    exact step 0 n acc shift rest h128 hfit
  | succ fuel ih =>
    intro n acc shift rest hn hfit
    by_cases h128 : n < 128
    · exact step (fuel + 1) n acc shift rest h128 hfit
    · have hb : n % 128 + 128 < 256 := by
        have := Nat.mod_lt n (y := 128) (by omega)
        omega
      have hmod : (n % 128 + 128) % 256 = n % 128 + 128 := Nat.mod_eq_of_lt hb
      have hrec : acc + n % 128 * 2 ^ shift + n / 128 * 2 ^ (shift + 7) =
          acc + n * 2 ^ shift := by
        have hsplit : n % 128 + 128 * (n / 128) = n := Nat.mod_add_div n 128
        calc acc + n % 128 * 2 ^ shift + n / 128 * 2 ^ (shift + 7)
            = acc + (n % 128 + 128 * (n / 128)) * 2 ^ shift := by ring
          _ = acc + n * 2 ^ shift := by rw [hsplit]
      have hdiv : n / 128 < 2 ^ (7 * (fuel + 1)) := by
        rw [Nat.div_lt_iff_lt_mul (by omega : (0:Nat) < 128)]
        calc n < 2 ^ (7 * (fuel + 1 + 1)) := hn
          _ = 2 ^ (7 * (fuel + 1)) * 128 := by ring
      have hih := ih (n / 128) (acc + n % 128 * 2 ^ shift) (shift + 7) rest hdiv
        (by rw [hrec]; exact hfit)
      have henc : varintEncodeAux (fuel + 1 + 1) n =
          (n % 128 + 128) :: varintEncodeAux (fuel + 1) (n / 128) := by
        rw [varintEncodeAux, if_neg h128]
      rw [henc, List.cons_append, varintReadLoop, hmod, if_neg (by omega)]
      have harg : n % 128 + 128 - 128 = n % 128 := by omega
      rw [harg, hih, hrec]

theorem varintRead_encode (n : Nat) (hn : n < 2 ^ 64) (rest : List Nat) :
    varintRead (varintEncode n ++ rest) = .ok (n, rest) := by
  have h := varintReadLoop_encodeAux 9 n 0 0 rest
    (lt_of_lt_of_le hn (Nat.pow_le_pow_right (by omega) (by omega)))
    (by simpa using hn)
  simpa [varintRead, varintEncode] using h

/-! ## Digest container round trip -/

theorem readExact_append (l rest : List Nat) :
    readExact l.length (l ++ rest) = .ok (l, rest) := by
  simp [readExact, List.take_left, List.drop_left]

theorem multihash_read_toBytes (S : Nat) (mh : Multihash) (rest : List Nat)
    (hcode : mh.code < 2 ^ 64) (hfit : mh.digest.length ≤ S)
    (hlen : mh.digest.length < 2 ^ 64) :
    Multihash.read S (mh.toBytes ++ rest) = .ok (mh, rest) := by
  unfold Multihash.read Multihash.toBytes
  rw [List.append_assoc, List.append_assoc, varintRead_encode _ hcode]
  dsimp only
  rw [varintRead_encode _ hlen]
  dsimp only
  rw [if_neg (by omega), readExact_append]

/-! ## Binary write path -/

theorem to_bytes_v0 (c : Cid) (hv : c.version = .v0) :
    c.to_bytes = c.hash.toBytes := by
  simp [Cid.to_bytes, Cid.write_bytes, Multihash.write, hv]

theorem to_bytes_v1 (c : Cid) (hv : c.version = .v1) :
    c.to_bytes = varintEncode 1 ++ (varintEncode c.codec ++ c.hash.toBytes) := by
  simp [Cid.to_bytes, Cid.write_bytes, Cid.write_bytes_v1, Multihash.write,
    writeAll, hv, Version.toCode]

/-! ## Binary round trip -/

theorem read_write_roundtrip (S : Nat) (c : Cid) (h : c.Valid S)
    (h32 : c.version = .v0 → c.hash.digest.length = 32) :
    Cid.tryFromBytes S c.to_bytes = some (.ok c) := by
  obtain ⟨hcodec, hcode, hfit, hlen, _, hv0⟩ := h
  cases hver : c.version with
  | v0 =>
    obtain ⟨hc70, hc12⟩ := hv0 hver
    have hd32 : c.hash.digest.length = 32 := h32 hver
    have henc : c.hash.toBytes =
        varintEncode 0x12 ++ (varintEncode 32 ++ c.hash.digest) := by
      unfold Multihash.toBytes
      rw [hc12, hd32, List.append_assoc]
      rfl
    unfold Cid.tryFromBytes Cid.read_bytes
    rw [to_bytes_v0 c hver, henc, varintRead_encode 0x12 (by norm_num)]
    dsimp only
    rw [varintRead_encode 32 (by norm_num)]
    dsimp only
    rw [if_pos ⟨rfl, rfl⟩]
    have hre : readExact 32 c.hash.digest = .ok (c.hash.digest, []) := by
      rw [← hd32, readExact, if_pos (le_refl _), List.take_length,
        List.drop_length]
    rw [hre]
    dsimp only
    unfold Multihash.wrap
    rw [if_pos (by omega)]
    dsimp only
    unfold Cid.new_v0
    rw [if_neg (by simp [SHA2_256])]
    obtain ⟨ver, codec, hash⟩ := c
    obtain ⟨code, digest⟩ := hash
    simp only at hver hc70 hc12
    subst hver hc70 hc12
    rfl
  | v1 =>
    unfold Cid.tryFromBytes Cid.read_bytes
    rw [to_bytes_v1 c hver, varintRead_encode 1 (by norm_num)]
    dsimp only
    rw [varintRead_encode c.codec hcodec]
    dsimp only
    rw [if_neg (by omega)]
    have hfrom : Version.fromCode 1 = .ok .v1 := rfl
    rw [hfrom]
    dsimp only
    have hmh := multihash_read_toBytes S c.hash [] hcode hfit hlen
    rw [List.append_nil] at hmh
    rw [hmh]
    obtain ⟨ver, codec, hash⟩ := c
    simp only at hver
    subst hver
    rfl

/-! ## Constructor inversion: the V0 structural invariant -/

theorem new_v0_inv (h : Multihash) (c : Cid) (hok : Cid.new_v0 h = .ok c) :
    c = ⟨.v0, DAG_PB, h⟩ ∧ h.code = SHA2_256 := by
  unfold Cid.new_v0 at hok
  split_ifs at hok with hc
  cases hok
  exact ⟨rfl, not_not.mp hc⟩

theorem new_inv (v : Version) (codec : Nat) (h : Multihash) (c : Cid)
    (hok : Cid.new v codec h = .ok c) (hver : c.version = .v0) :
    c.codec = DAG_PB ∧ c.hash.code = SHA2_256 := by
  cases v with
  | v0 =>
    dsimp only [Cid.new] at hok
    unfold Cid.new_v0 at hok
    split_ifs at hok with hcodec hcode
    cases hok
    exact ⟨rfl, not_not.mp hcode⟩
  | v1 =>
    dsimp only [Cid.new, Cid.new_v1] at hok
    cases hok
    simp at hver

theorem read_bytes_v0_inv (S : Nat) (bs : List Nat) (c : Cid)
    (hok : Cid.read_bytes S bs = some (.ok c)) (hver : c.version = .v0) :
    c.codec = DAG_PB ∧ c.hash.code = SHA2_256 := by
  unfold Cid.read_bytes at hok
  split at hok
  · simp at hok
  · split at hok
    · simp at hok
    · split at hok
      · split at hok
        · simp at hok
        · split at hok
          · simp at hok
          · simp only [Option.some.injEq] at hok
            obtain ⟨hc, hcode⟩ := new_v0_inv _ _ hok
            subst hc
            exact ⟨rfl, hcode⟩
      · split at hok
        · simp at hok
        · split at hok
          · simp at hok
          · simp only [Option.some.injEq] at hok
            exact new_inv _ _ _ _ hok hver

theorem tryFromStr_v0_inv (S : Nat) (s : List Char) (c : Cid)
    (hok : Cid.tryFromStr S s = some (.ok c)) (hver : c.version = .v0) :
    c.codec = DAG_PB ∧ c.hash.code = SHA2_256 := by
  simp only [Cid.tryFromStr] at hok
  split_ifs at hok
  · simp at hok
  · split at hok
    · exact read_bytes_v0_inv _ _ _ hok hver
    · simp at hok
  · split at hok
    · exact read_bytes_v0_inv _ _ _ hok hver
    · simp at hok

theorem readExact_ok_len (n : Nat) (bs d r : List Nat)
    (hok : readExact n bs = .ok (d, r)) : d.length = n := by
  unfold readExact at hok
  split_ifs at hok with hn
  injection hok with h
  injection h with h1 h2
  rw [← h1, List.length_take]
  omega

/-! ## Big-endian digits and values -/

theorem natDigitsBE_eq (b : Nat) (hb : 2 ≤ b) :
    ∀ fuel n, n < b ^ fuel → natDigitsBE b fuel n = (Nat.digits b n).reverse := by
  intro fuel
  induction fuel with
  | zero =>
    intro n hn
    have : n = 0 := by simpa using hn
    subst this
    simp [natDigitsBE]
  | succ fuel ih =>
    intro n hn
    by_cases h0 : n = 0
    · subst h0
      simp [natDigitsBE]
    · rw [natDigitsBE, if_neg h0,
        Nat.digits_def' (by omega : 1 < b) (Nat.pos_of_ne_zero h0),
        List.reverse_cons, ih (n / b)]
      rw [Nat.div_lt_iff_lt_mul (by omega : 0 < b)]
      calc n < b ^ (fuel + 1) := hn
        _ = b ^ fuel * b := by rw [Nat.pow_succ]

theorem beVal_foldl (b : Nat) :
    ∀ (L : List Nat) (acc : Nat),
      L.foldl (fun a d => a * b + d) acc =
        acc * b ^ L.length + Nat.ofDigits b L.reverse := by
  intro L
  induction L with
  | nil => intro acc; simp [Nat.ofDigits]
  | cons d t ih =>
    intro acc
    rw [List.foldl_cons, ih (acc * b + d), List.reverse_cons,
      Nat.ofDigits_append]
    simp [Nat.ofDigits, List.length_cons, Nat.pow_succ]
    ring

theorem beVal_eq_ofDigits (b : Nat) (L : List Nat) :
    beVal b L = Nat.ofDigits b L.reverse := by
  rw [beVal, beVal_foldl]
  simp

theorem beVal_digits (b n : Nat) :
    beVal b (Nat.digits b n).reverse = n := by
  rw [beVal_eq_ofDigits, List.reverse_reverse, Nat.ofDigits_digits]

theorem ofDigits_replicate_zero (b : Nat) :
    ∀ z, Nat.ofDigits b (List.replicate z 0) = 0 := by
  intro z
  induction z with
  | zero => simp [Nat.ofDigits]
  | succ z ih => simp [List.replicate_succ, Nat.ofDigits, ih]

theorem beVal_replicate_zero_append (b : Nat) (z : Nat) (L : List Nat) :
    beVal b (List.replicate z 0 ++ L) = beVal b L := by
  rw [beVal_eq_ofDigits, beVal_eq_ofDigits, List.reverse_append,
    Nat.ofDigits_append, List.reverse_replicate, ofDigits_replicate_zero]
  simp

/-! ## Character/digit tables -/

theorem charsToVals_map (alpha : List Char)
    (hinj : ∀ d, d < alpha.length →
      alpha.findIdx? (fun x => x == alpha.getD d ' ') = some d) :
    ∀ ds : List Nat, (∀ d ∈ ds, d < alpha.length) →
      charsToVals alpha (ds.map (fun d => alpha.getD d ' ')) = some ds := by
  intro ds
  induction ds with
  | nil => intro _; rfl
  | cons d t ih =>
    intro hds
    rw [List.map_cons, charsToVals, hinj d (hds d (by simp)),
      ih (fun x hx => hds x (by simp [hx]))]

theorem b58_lookup :
    ∀ d, d < 58 →
      B58BTC_ALPHA.findIdx? (fun x => x == B58BTC_ALPHA.getD d ' ') = some d := by
  decide

theorem b58_nonzero_char :
    ∀ d, d < 58 → d ≠ 0 →
      (B58BTC_ALPHA.getD d ' ' == B58BTC_ALPHA.getD 0 ' ') = false := by
  decide

theorem b58_length : B58BTC_ALPHA.length = 58 := by decide

/-! ## Big-number base codec round trip -/

theorem natDigitsBE_zero (b : Nat) : ∀ fuel, natDigitsBE b fuel 0 = [] := by
  intro fuel
  cases fuel <;> simp [natDigitsBE]

theorem takeWhile_append_of_all {α : Type} (p : α → Bool) :
    ∀ (l1 l2 : List α), (∀ x ∈ l1, p x = true) →
      (l1 ++ l2).takeWhile p = l1 ++ l2.takeWhile p := by
  intro l1
  induction l1 with
  | nil => intro l2 _; rfl
  | cons a t ih =>
    intro l2 hall
    rw [List.cons_append, List.takeWhile_cons_of_pos (hall a (by simp)),
      ih l2 (fun x hx => hall x (by simp [hx]))]
    rfl

theorem takeWhile_replicate_self {α : Type} [BEq α] [LawfulBEq α] (c : α)
    (z : Nat) :
    (List.replicate z c).takeWhile (fun x => x == c) = List.replicate z c := by
  have hall := takeWhile_append_of_all (fun x : α => x == c)
    (List.replicate z c) [] (fun x hx => by rw [List.eq_of_mem_replicate hx]; simp)
  simp only [List.append_nil, List.takeWhile_nil] at hall
  exact hall

theorem bignum_roundtrip (alpha : List Char) (hR : 2 ≤ alpha.length)
    (hR256 : alpha.length ≤ 256)
    (hinj : ∀ d, d < alpha.length →
      alpha.findIdx? (fun x => x == alpha.getD d ' ') = some d)
    (hz : ∀ d, d < alpha.length → d ≠ 0 →
      (alpha.getD d ' ' == alpha.getD 0 ' ') = false)
    (bs : List Nat) (hbs : ∀ b ∈ bs, b < 256) :
    bignumDecode alpha (bignumEncode alpha bs) = .ok bs := by
  set R := alpha.length with hRdef
  set zc := alpha.getD 0 ' ' with hzc
  set z := (bs.takeWhile (fun b => b == 0)).length with hzdef
  have hsplitwd := List.takeWhile_append_dropWhile
    (p := fun b : Nat => b == 0) (l := bs)
  have htwrep : bs.takeWhile (fun b => b == 0) = List.replicate z 0 := by
    rw [hzdef]
    exact List.eq_replicate_of_mem
      (fun x hx => by simpa using List.mem_takeWhile_imp hx)
  cases hdw : bs.dropWhile (fun b => b == 0) with
  | nil =>
    have hbsrep : bs = List.replicate z 0 := by
      rw [← hsplitwd, hdw, htwrep, List.append_nil]
    have hn : beVal 256 bs = 0 := by
      rw [hbsrep]
      have := beVal_replicate_zero_append 256 z []
      simpa [beVal] using this
    rw [bignumEncode]
    simp only [← hzdef, hn, natDigitsBE_zero, List.map_nil, List.append_nil]
    rw [bignumDecode]
    have hvals : charsToVals alpha (List.replicate z zc) =
        some (List.replicate z 0) := by
      have hmapr : (List.replicate z (0 : Nat)).map (fun d => alpha.getD d ' ') =
          List.replicate z zc := by
        rw [List.map_replicate, hzc]
      have hcv := charsToVals_map alpha hinj (List.replicate z 0)
        (fun d hd => by rw [List.eq_of_mem_replicate hd]; omega)
      rwa [hmapr] at hcv
    rw [hvals]
    have htw : ((List.replicate z zc).takeWhile (fun c => c == zc)).length = z := by
      rw [takeWhile_replicate_self, List.length_replicate]
    rw [htw]
    dsimp only
    have hv0 : beVal alpha.length (List.replicate z 0) = 0 := by
      have hva := beVal_replicate_zero_append alpha.length z []
      simpa [beVal] using hva
    rw [hv0, natDigitsBE_zero, List.append_nil, ← hbsrep]
  | cons b t =>
    have hw : bs.dropWhile (fun x : Nat => x == 0) ≠ [] := by rw [hdw]; simp
    have hnot := List.head_dropWhile_not (fun x : Nat => x == 0) bs hw
    simp only [hdw, List.head_cons] at hnot
    have hbne : b ≠ 0 := by simpa using hnot
    have hbsrep : bs = List.replicate z 0 ++ b :: t := by
      rw [← hsplitwd, hdw, htwrep]
    have hrev : bs.reverse = (t.reverse ++ [b]) ++ List.replicate z 0 := by
      rw [hbsrep, List.reverse_append, List.reverse_cons, List.reverse_replicate]
    have hnval : beVal 256 bs = Nat.ofDigits 256 (t.reverse ++ [b]) := by
      rw [beVal_eq_ofDigits, hrev, Nat.ofDigits_append, ofDigits_replicate_zero,
        Nat.mul_zero, Nat.add_zero]
    set N := Nat.ofDigits 256 (t.reverse ++ [b]) with hN
    have hLlt : ∀ x ∈ t.reverse ++ [b], x < 256 := by
      intro x hx
      apply hbs
      rw [hbsrep]
      rcases List.mem_append.mp hx with hx | hx
      · exact List.mem_append_right _
          (List.mem_cons_of_mem b (List.mem_reverse.mp hx))
      · rw [List.mem_singleton.mp hx]
        exact List.mem_append_right _ (List.mem_cons_self b t)
    have hLlast : ∀ hne : t.reverse ++ [b] ≠ [],
        (t.reverse ++ [b]).getLast hne ≠ 0 := by
      intro hne
      rw [List.getLast_concat]
      exact hbne
    have hdig256 : Nat.digits 256 N = t.reverse ++ [b] :=
      Nat.digits_ofDigits 256 (by norm_num) _ hLlt hLlast
    have hn0 : N ≠ 0 := by
      intro h0
      exact absurd hdig256 (by rw [h0]; simp)
    have hnlt : N < 256 ^ bs.length := by
      have h1 : N < 256 ^ (t.reverse ++ [b]).length :=
        Nat.ofDigits_lt_base_pow_length (by norm_num) hLlt
      have h2 : (t.reverse ++ [b]).length ≤ bs.length := by
        rw [hbsrep]
        simp
      exact lt_of_lt_of_le h1 (Nat.pow_le_pow_right (by norm_num) h2)
    have hfit : N < R ^ (8 * bs.length) := by
      calc N < 256 ^ bs.length := hnlt
        _ = 2 ^ (8 * bs.length) := by rw [Nat.pow_mul]
        _ ≤ R ^ (8 * bs.length) := Nat.pow_le_pow_left hR _
    have hdigBE : natDigitsBE R (8 * bs.length) N = (Nat.digits R N).reverse :=
      natDigitsBE_eq R hR _ _ hfit
    have hDmem : ∀ d ∈ (Nat.digits R N).reverse, d < R := fun d hd =>
      Nat.digits_lt_base (by omega) (List.mem_reverse.mp hd)
    have hDne : (Nat.digits R N).reverse ≠ [] := by
      simp only [ne_eq, List.reverse_eq_nil_iff]
      exact Nat.digits_ne_nil_iff_ne_zero.mpr hn0
    have henc : bignumEncode alpha bs =
        List.replicate z zc ++
          ((Nat.digits R N).reverse).map (fun d => alpha.getD d ' ') := by
      rw [bignumEncode]
      simp only [← hzdef, ← hzc, ← hRdef]
      rw [hnval, hdigBE]
    cases hDc : (Nat.digits R N).reverse with
    | nil => exact absurd hDc hDne
    | cons d0 Drest =>
      have hrevD : Nat.digits R N = Drest.reverse ++ [d0] := by
        have hrr := congrArg List.reverse hDc
        rwa [List.reverse_reverse, List.reverse_cons] at hrr
      have hd0 : d0 ≠ 0 := by
        have hgl := Nat.getLast_digit_ne_zero R hn0
        simp only [hrevD, List.getLast_concat] at hgl
        exact hgl
      have hd0R : d0 < R := hDmem d0 (by rw [hDc]; exact List.mem_cons_self _ _)
      have hneg : ((alpha.getD d0 ' ') == zc) = false := by
        rw [hzc]
        exact hz d0 hd0R hd0
      have hvals : charsToVals alpha
          (List.replicate z zc ++ (d0 :: Drest).map (fun d => alpha.getD d ' ')) =
          some (List.replicate z 0 ++ d0 :: Drest) := by
        have hmap : List.replicate z zc ++
            (d0 :: Drest).map (fun d => alpha.getD d ' ') =
            (List.replicate z 0 ++ d0 :: Drest).map (fun d => alpha.getD d ' ') := by
          rw [List.map_append, List.map_replicate, hzc]
        rw [hmap]
        apply charsToVals_map alpha hinj
        intro d hd
        rcases List.mem_append.mp hd with h | h
        · rw [List.eq_of_mem_replicate h]
          omega
        · exact hDmem d (by rw [hDc]; exact h)
      have htwlen : ((List.replicate z zc ++
          (d0 :: Drest).map (fun d => alpha.getD d ' ')).takeWhile
            (fun c => c == zc)).length = z := by
        rw [takeWhile_append_of_all _ _ _
          (fun x hx => by rw [List.eq_of_mem_replicate hx]; simp)]
        rw [List.map_cons, List.takeWhile_cons_of_neg
          (by rw [hneg]; exact Bool.false_ne_true)]
        simp
      have hvaleq : beVal R (List.replicate z 0 ++ d0 :: Drest) = N := by
        rw [beVal_replicate_zero_append, ← hDc, beVal_digits]
      have hfinlen : N < 256 ^ (List.replicate z zc ++
          (d0 :: Drest).map (fun d => alpha.getD d ' ')).length := by
        have h1 : N < R ^ (Nat.digits R N).length :=
          Nat.lt_base_pow_length_digits (by omega)
        have hlenD : (Nat.digits R N).length = (d0 :: Drest).length := by
          rw [← List.length_reverse, hDc]
        calc N < R ^ (d0 :: Drest).length := hlenD ▸ h1
          _ ≤ 256 ^ (d0 :: Drest).length := Nat.pow_le_pow_left hR256 _
          _ ≤ 256 ^ (List.replicate z zc ++
              (d0 :: Drest).map (fun d => alpha.getD d ' ')).length :=
            Nat.pow_le_pow_right (by norm_num) (by simp)
      rw [henc, hDc, bignumDecode]
      simp only [hvals]
      rw [htwlen, hvaleq, natDigitsBE_eq 256 (by norm_num) _ N hfinlen, hdig256]
      simp only [List.reverse_append, List.reverse_reverse, List.reverse_cons,
        List.reverse_nil, List.nil_append, List.singleton_append]
      rw [← hbsrep]

/-! ## Bit-group base codec round trip -/

theorem natToBits_length : ∀ w n, (natToBits w n).length = w := by
  intro w
  induction w with
  | zero => intro n; rfl
  | succ w ih =>
    intro n
    rw [natToBits, List.length_append, ih]
    simp

theorem quint_expand :
    ∀ a b c d e : Bool,
      natToBits 5 (bitsToNat [a, b, c, d, e]) = [a, b, c, d, e] := by decide

theorem quint_id (g : List Bool) (hg : g.length = 5) :
    natToBits 5 (bitsToNat g) = g := by
  match g, hg with
  | [a, b, c, d, e], _ => exact quint_expand a b c d e

set_option maxRecDepth 8192 in
theorem byte_id : ∀ b, b < 256 → bitsToNat (natToBits 8 b) = b := by decide

theorem bitsToNat_foldl_lt :
    ∀ (l : List Bool) (acc : Nat),
      l.foldl (fun a b => 2 * a + (if b then 1 else 0)) acc <
        (acc + 1) * 2 ^ l.length := by
  intro l
  induction l with
  | nil => intro acc; simp
  | cons x t ih =>
    intro acc
    rw [List.foldl_cons, List.length_cons]
    calc t.foldl (fun a b => 2 * a + (if b then 1 else 0))
          (2 * acc + (if x then 1 else 0))
        < (2 * acc + (if x then 1 else 0) + 1) * 2 ^ t.length := ih _
      _ ≤ (acc + 1) * 2 ^ (t.length + 1) := by
          rw [Nat.pow_succ]
          have h1 : 2 * acc + (if x then 1 else 0) + 1 ≤ 2 * (acc + 1) := by
            cases x <;> simp <;> omega
          calc (2 * acc + (if x then 1 else 0) + 1) * 2 ^ t.length
              ≤ 2 * (acc + 1) * 2 ^ t.length := Nat.mul_le_mul_right _ h1
            _ = (acc + 1) * (2 ^ t.length * 2) := by ring

theorem bitsToNat_lt (g : List Bool) : bitsToNat g < 2 ^ g.length := by
  have h := bitsToNat_foldl_lt g 0
  simpa [bitsToNat] using h

theorem chunkPadAux_nil (k : Nat) : ∀ fuel, chunkPadAux k fuel [] = [] := by
  intro fuel
  cases fuel <;> simp [chunkPadAux]

theorem chunkPadAux_mem_len (k : Nat) :
    ∀ fuel (l : List Bool), l.length ≤ fuel →
      ∀ g ∈ chunkPadAux k fuel l, g.length = k + 1 := by
  intro fuel
  induction fuel with
  | zero =>
    intro l hl g hg
    have : l = [] := List.length_eq_zero.mp (by omega)
    subst this
    simp [chunkPadAux] at hg
  | succ fuel ih =>
    intro l hl g hg
    by_cases hnil : l = []
    · subst hnil
      simp [chunkPadAux] at hg
    · rw [chunkPadAux, if_neg (by simp [hnil])] at hg
      rcases List.mem_cons.mp hg with hg | hg
      · subst hg
        have hlp : 0 < l.length := List.length_pos.mpr hnil
        simp only [List.length_append, List.length_take, List.length_replicate]
        omega
      · exact ih (l.drop (k + 1)) (by rw [List.length_drop]; omega) g hg

theorem chunkPad_flatten :
    ∀ fuel (l : List Bool), l.length ≤ fuel →
      ((chunkPadAux 4 fuel l).map (fun g => natToBits 5 (bitsToNat g))).flatten =
        l ++ List.replicate ((5 - l.length % 5) % 5) false := by
  intro fuel
  induction fuel with
  | zero =>
    intro l hl
    have : l = [] := List.length_eq_zero.mp (by omega)
    subst this
    simp [chunkPadAux]
  | succ fuel ih =>
    intro l hl
    by_cases hnil : l = []
    · subst hnil
      simp [chunkPadAux]
    · rw [chunkPadAux, if_neg (by simp [hnil])]
      have hlp : 0 < l.length := List.length_pos.mpr hnil
      have hglen : (l.take 5 ++ List.replicate (5 - l.length) false).length = 5 := by
        simp only [List.length_append, List.length_take, List.length_replicate]
        omega
      rw [List.map_cons, List.flatten_cons, quint_id _ hglen,
        ih (l.drop 5) (by rw [List.length_drop]; omega)]
      by_cases h5 : 5 ≤ l.length
      · have hz5 : 5 - l.length = 0 := by omega
        have hmod : (l.drop 5).length % 5 = l.length % 5 := by
          rw [List.length_drop]
          omega
        rw [hz5, List.replicate_zero, List.append_nil, hmod,
          ← List.append_assoc, List.take_append_drop]
      · have hdrop : l.drop 5 = [] := List.drop_eq_nil_of_le (by omega)
        have htake : l.take 5 = l := List.take_of_length_le (by omega)
        have hcnt : 5 - l.length = (5 - l.length % 5) % 5 := by omega
        rw [hdrop, htake, ← hcnt]
        simp

theorem bytesToBits_cons (b : Nat) (bs : List Nat) :
    bytesToBits (b :: bs) = natToBits 8 b ++ bytesToBits bs := by
  simp [bytesToBits]

theorem bitsToBytesAux_spec :
    ∀ (bs : List Nat) (fuel : Nat) (extra : List Bool),
      (∀ b ∈ bs, b < 256) → extra.length < 8 →
      (bytesToBits bs ++ extra).length ≤ fuel →
      bitsToBytesAux fuel (bytesToBits bs ++ extra) = bs := by
  intro bs
  induction bs with
  | nil =>
    intro fuel extra _ hex _
    have hb : bytesToBits [] = [] := rfl
    rw [hb, List.nil_append]
    cases fuel with
    | zero => rfl
    | succ fuel => rw [bitsToBytesAux, if_neg (by omega)]
  | cons b t ih =>
    intro fuel extra hbs hex hfuel
    rw [bytesToBits_cons, List.append_assoc] at hfuel ⊢
    have hlen8 : (natToBits 8 b).length = 8 := natToBits_length 8 b
    have hge : 8 ≤ (natToBits 8 b ++ (bytesToBits t ++ extra)).length := by
      rw [List.length_append, hlen8]
      omega
    cases fuel with
    | zero =>
      exfalso
      omega
    | succ fuel =>
      rw [bitsToBytesAux, if_pos hge, List.take_left' hlen8,
        List.drop_left' hlen8, byte_id b (hbs b (by simp)),
        ih fuel extra (fun x hx => hbs x (by simp [hx])) hex (by
          rw [List.length_append, hlen8] at hfuel
          omega)]

theorem bits_roundtrip (alpha : List Char) (hA : alpha.length = 32)
    (hinj : ∀ d, d < alpha.length →
      alpha.findIdx? (fun x => x == alpha.getD d ' ') = some d)
    (bs : List Nat) (hbs : ∀ b ∈ bs, b < 256) :
    bitsDecode 4 alpha (bitsEncode 4 alpha bs) = .ok bs := by
  rw [bitsEncode, bitsDecode]
  have hmm : (chunkPad 4 (bytesToBits bs)).map (fun g => alpha.getD (bitsToNat g) ' ') =
      ((chunkPad 4 (bytesToBits bs)).map bitsToNat).map (fun d => alpha.getD d ' ') := by
    rw [List.map_map]
    rfl
  have hds : ∀ d ∈ (chunkPad 4 (bytesToBits bs)).map bitsToNat, d < alpha.length := by
    intro d hd
    rcases List.mem_map.mp hd with ⟨g, hg, rfl⟩
    have hglen : g.length = 5 :=
      chunkPadAux_mem_len 4 (bytesToBits bs).length (bytesToBits bs) (le_refl _) g hg
    have := bitsToNat_lt g
    rw [hglen] at this
    omega
  rw [hmm, charsToVals_map alpha hinj _ hds]
  dsimp only
  have hflat : (List.map (natToBits (4 + 1))
      (List.map bitsToNat (chunkPad 4 (bytesToBits bs)))).flatten =
      bytesToBits bs ++
        List.replicate ((5 - (bytesToBits bs).length % 5) % 5) false := by
    rw [List.map_map]
    exact chunkPad_flatten (bytesToBits bs).length (bytesToBits bs) (le_refl _)
  rw [hflat, bitsToBytes,
    bitsToBytesAux_spec bs _ _ hbs (by
      have : ((5 - (bytesToBits bs).length % 5) % 5) < 5 := Nat.mod_lt _ (by omega)
      rw [List.length_replicate]
      omega) (le_refl _)]

/-! ## The legacy text shape: 46 characters starting with Qm -/

theorem digits_getD (b : Nat) (hb : 2 ≤ b) :
    ∀ i n, (Nat.digits b n).getD i 0 = n / b ^ i % b := by
  intro i
  induction i with
  | zero =>
    intro n
    by_cases h0 : n = 0
    · subst h0
      simp
    · rw [Nat.digits_def' (by omega : 1 < b) (Nat.pos_of_ne_zero h0)]
      simp
  | succ i ih =>
    intro n
    by_cases h0 : n = 0
    · subst h0
      simp
    · rw [Nat.digits_def' (by omega : 1 < b) (Nat.pos_of_ne_zero h0),
        List.getD_cons_succ, ih (n / b), Nat.div_div_eq_div_mul]
      congr 2
      rw [Nat.pow_succ']

theorem getD_reverse (l : List Nat) (i : Nat) (hi : i < l.length) :
    l.reverse.getD i 0 = l.getD (l.length - 1 - i) 0 := by
  rw [List.getD_eq_getElem?_getD, List.getD_eq_getElem?_getD,
    List.getElem?_reverse hi]

theorem isV0Str_b58_encode (d : List Nat) (hd : d.length = 32)
    (hlt : ∀ x ∈ d, x < 256) :
    Version.isV0Str (bignumEncode B58BTC_ALPHA (0x12 :: 0x20 :: d)) = true := by
  have hA : Nat.ofDigits 256 d.reverse < 256 ^ 32 := by
    have h1 := Nat.ofDigits_lt_base_pow_length (b := 256) (l := d.reverse)
      (by norm_num) (fun x hx => hlt x (List.mem_reverse.mp hx))
    rwa [List.length_reverse, hd] at h1
  have hrev : (0x12 :: 0x20 :: d).reverse = d.reverse ++ [0x20, 0x12] := by
    simp
  have hof2 : Nat.ofDigits 256 [0x20, 0x12] = 4640 := by
    norm_num [Nat.ofDigits]
  have hsplit : beVal 256 (0x12 :: 0x20 :: d) =
      Nat.ofDigits 256 d.reverse + 256 ^ 32 * 4640 := by
    rw [beVal_eq_ofDigits, hrev, Nat.ofDigits_append, List.length_reverse, hd,
      hof2]
  set n := beVal 256 (0x12 :: 0x20 :: d) with hn
  have hnlo : 4640 * 256 ^ 32 ≤ n := by
    rw [hsplit]
    omega
  have hnhi : n < 4641 * 256 ^ 32 := by
    rw [hsplit]
    omega
  have hn0 : n ≠ 0 := by
    have hpos : 0 < 4640 * 256 ^ 32 := by positivity
    omega
  have hlt46 : n < 58 ^ 46 := by
    have hcmp : 4641 * 256 ^ 32 ≤ 58 ^ 46 := by decide
    omega
  have hge45 : 58 ^ 45 ≤ n := by
    have hcmp : 58 ^ 45 ≤ 4640 * 256 ^ 32 := by decide
    omega
  have hlen46 : (Nat.digits 58 n).length = 46 := by
    have hup : (Nat.digits 58 n).length ≤ 46 := by
      by_contra hcon
      push_neg at hcon
      have h1 : 58 ^ (Nat.digits 58 n).length ≤ 58 * n :=
        Nat.base_pow_length_digits_le 58 n (by norm_num) hn0
      have h2 : (58 : Nat) ^ 47 ≤ 58 ^ (Nat.digits 58 n).length :=
        Nat.pow_le_pow_right (by norm_num) hcon
      have h3 : (58 : Nat) ^ 47 = 58 * 58 ^ 46 := by
        rw [← Nat.pow_succ']
      have h4 : 58 * 58 ^ 46 ≤ 58 * n := by omega
      have h5 : 58 ^ 46 ≤ n := Nat.le_of_mul_le_mul_left h4 (by norm_num)
      omega
    have hdown : 46 ≤ (Nat.digits 58 n).length := by
      by_contra hcon
      push_neg at hcon
      have h1 : n < 58 ^ (Nat.digits 58 n).length :=
        Nat.lt_base_pow_length_digits (by norm_num)
      have h2 : (58 : Nat) ^ (Nat.digits 58 n).length ≤ 58 ^ 45 :=
        Nat.pow_le_pow_right (by norm_num) (by omega)
      omega
    omega
  have hq : n / 58 ^ 44 = 1378 := by
    apply Nat.div_eq_of_lt_le
    · calc 1378 * 58 ^ 44 ≤ 4640 * 256 ^ 32 := by decide
        _ ≤ n := hnlo
    · calc n < 4641 * 256 ^ 32 := hnhi
        _ ≤ (1378 + 1) * 58 ^ 44 := by decide
  have hd45 : (Nat.digits 58 n).getD 45 0 = 23 := by
    rw [digits_getD 58 (by norm_num) 45 n]
    have h4445 : (58 : Nat) ^ 45 = 58 ^ 44 * 58 := by
      rw [← Nat.pow_succ]
    rw [h4445, ← Nat.div_div_eq_div_mul, hq]
  have hd44 : (Nat.digits 58 n).getD 44 0 = 44 := by
    rw [digits_getD 58 (by norm_num) 44 n, hq]
  have htw : (0x12 :: 0x20 :: d).takeWhile (fun b => b == 0) = [] :=
    List.takeWhile_cons_of_neg (by decide)
  have hfit : n < 58 ^ (8 * (0x12 :: 0x20 :: d).length) := by
    have hlen : (0x12 :: 0x20 :: d).length = 34 := by simp [hd]
    rw [hlen]
    calc n < 58 ^ 46 := hlt46
      _ ≤ 58 ^ (8 * 34) := Nat.pow_le_pow_right (by norm_num) (by norm_num)
  have henc : bignumEncode B58BTC_ALPHA (0x12 :: 0x20 :: d) =
      ((Nat.digits 58 n).reverse).map (fun x => B58BTC_ALPHA.getD x ' ') := by
    rw [bignumEncode]
    simp only [htw, List.length_nil, List.replicate_zero, List.nil_append]
    rw [b58_length, ← hn, natDigitsBE_eq 58 (by norm_num) _ n hfit]
  rw [henc]
  cases hD1 : (Nat.digits 58 n).reverse with
  | nil =>
    exfalso
    have hlc := congrArg List.length hD1
    rw [List.length_reverse, hlen46] at hlc
    simp at hlc
  | cons x D' =>
    cases hD2 : D' with
    | nil =>
      exfalso
      rw [hD2] at hD1
      have hlc := congrArg List.length hD1
      rw [List.length_reverse, hlen46] at hlc
      simp at hlc
    | cons y rest =>
      rw [hD2] at hD1
      have hx : x = 23 := by
        have h0 := getD_reverse (Nat.digits 58 n) 0 (by omega)
        rw [hD1, hlen46, show (46 : Nat) - 1 - 0 = 45 from rfl] at h0
        rw [List.getD_cons_zero] at h0
        exact h0.trans hd45
      have hy : y = 44 := by
        have h1 := getD_reverse (Nat.digits 58 n) 1 (by omega)
        rw [hD1, hlen46, show (46 : Nat) - 1 - 1 = 44 from rfl] at h1
        rw [List.getD_cons_succ, List.getD_cons_zero] at h1
        exact h1.trans hd44
      have hlrest : rest.length = 44 := by
        have hlc := congrArg List.length hD1
        rw [List.length_reverse, hlen46] at hlc
        simp at hlc
        omega
      subst hx hy
      rw [Version.isV0Str]
      simp [hlrest]
      exact ⟨by decide, by decide⟩

/-! ## Text round trip -/

theorem getD_mem (alpha : List Char) (d : Nat) (hd : d < alpha.length) :
    alpha.getD d ' ' ∈ alpha := by
  rw [List.getD_eq_getElem?_getD, List.getElem?_eq_getElem hd]
  simp only [Option.getD_some]
  exact List.getElem_mem hd

theorem natDigitsBE_lt (b : Nat) (hb : 2 ≤ b) :
    ∀ fuel n d, d ∈ natDigitsBE b fuel n → d < b := by
  intro fuel
  induction fuel with
  | zero => intro n d hd; simp [natDigitsBE] at hd
  | succ fuel ih =>
    intro n d hd
    by_cases h0 : n = 0
    · subst h0; simp [natDigitsBE] at hd
    · rw [natDigitsBE, if_neg h0] at hd
      rcases List.mem_append.mp hd with hd | hd
      · exact ih (n / b) d hd
      · rw [List.mem_singleton.mp hd]
        exact Nat.mod_lt n (by omega)

theorem ipfs_delimiter_chars :
    IPFS_DELIMITER = ['/', 'i', 'p', 'f', 's', '/'] := by decide

theorem findIpfs_none (s : List Char) (hs : ∀ c ∈ s, c ≠ '/') :
    findIpfs s = none := by
  induction s with
  | nil => rfl
  | cons c rest ih =>
    have hc : c ≠ '/' := hs c (by simp)
    have hpf : (IPFS_DELIMITER.isPrefixOf (c :: rest)) = false := by
      rw [ipfs_delimiter_chars, List.isPrefixOf_cons₂]
      have hbeq : (('/' : Char) == c) = false :=
        beq_eq_false_iff_ne.mpr (Ne.symm hc)
      rw [hbeq, Bool.false_and]
    rw [findIpfs, if_neg (by rw [hpf]; exact Bool.false_ne_true),
      ih (fun x hx => hs x (by simp [hx]))]

theorem multihash_toBytes_lt (mh : Multihash) (hd : ∀ b ∈ mh.digest, b < 256) :
    ∀ b ∈ mh.toBytes, b < 256 := by
  intro b hb
  rw [Multihash.toBytes] at hb
  rcases List.mem_append.mp hb with hb | hb
  · rcases List.mem_append.mp hb with hb | hb
    · exact varintEncode_byte_lt _ b hb
    · exact varintEncode_byte_lt _ b hb
  · exact hd b hb

theorem to_bytes_lt (S : Nat) (c : Cid) (h : c.Valid S) :
    ∀ b ∈ c.to_bytes, b < 256 := by
  obtain ⟨_, _, _, _, hdig, _⟩ := h
  intro b hb
  cases hver : c.version with
  | v0 =>
    rw [to_bytes_v0 c hver] at hb
    exact multihash_toBytes_lt c.hash hdig b hb
  | v1 =>
    rw [to_bytes_v1 c hver] at hb
    rcases List.mem_append.mp hb with hb | hb
    · exact varintEncode_byte_lt _ b hb
    · rcases List.mem_append.mp hb with hb | hb
      · exact varintEncode_byte_lt _ b hb
      · exact multihash_toBytes_lt c.hash hdig b hb

theorem bignumEncode_mem (alpha : List Char) (hR : 2 ≤ alpha.length)
    (bs : List Nat) :
    ∀ ch ∈ bignumEncode alpha bs, ch ∈ alpha := by
  intro ch hch
  rw [bignumEncode] at hch
  rcases List.mem_append.mp hch with hch | hch
  · rw [List.eq_of_mem_replicate hch]
    exact getD_mem alpha 0 (by omega)
  · rcases List.mem_map.mp hch with ⟨d, hd, rfl⟩
    exact getD_mem alpha d (natDigitsBE_lt alpha.length hR _ _ d hd)

theorem bitsEncode_mem (alpha : List Char) (hA : alpha.length = 32)
    (bs : List Nat) :
    ∀ ch ∈ bitsEncode 4 alpha bs, ch ∈ alpha := by
  intro ch hch
  rw [bitsEncode] at hch
  rcases List.mem_map.mp hch with ⟨g, hg, rfl⟩
  have hglen : g.length = 5 :=
    chunkPadAux_mem_len 4 (bytesToBits bs).length (bytesToBits bs) (le_refl _) g hg
  have hlt := bitsToNat_lt g
  rw [hglen] at hlt
  exact getD_mem alpha (bitsToNat g) (by omega)

theorem bitsEncode_ne_nil (alpha : List Char) (bs : List Nat) (hbs : bs ≠ []) :
    bitsEncode 4 alpha bs ≠ [] := by
  rw [bitsEncode, chunkPad]
  obtain ⟨b, t, rfl⟩ := List.exists_cons_of_ne_nil hbs
  have hlen : (bytesToBits (b :: t)).length = 8 + (bytesToBits t).length := by
    rw [bytesToBits_cons, List.length_append, natToBits_length]
  have hne : bytesToBits (b :: t) ≠ [] := by
    intro hcon
    rw [hcon] at hlen
    simp only [List.length_nil] at hlen
    omega
  cases hfe : (bytesToBits (b :: t)).length with
  | zero =>
    exfalso
    omega
  | succ fuel =>
    rw [chunkPadAux, if_neg (by rw [List.isEmpty_iff]; exact hne)]
    simp

theorem b32_length : B32L_ALPHA.length = 32 := by decide

theorem b32_lookup :
    ∀ d, d < 32 →
      B32L_ALPHA.findIdx? (fun x => x == B32L_ALPHA.getD d ' ') = some d := by
  decide

theorem tryFromStr_toText_v1 (S : Nat) (c : Cid) (h : c.Valid S)
    (hver : c.version = .v1) :
    Cid.tryFromStr S c.toText = some (.ok c) := by
  have hbytes : ∀ b ∈ c.to_bytes, b < 256 := to_bytes_lt S c h
  have htbne : c.to_bytes ≠ [] := by
    rw [to_bytes_v1 c hver]
    have h1 : varintEncode 1 = [1] := by decide
    rw [h1]
    simp
  have htext : c.toText = 'b' :: bitsEncode 4 B32L_ALPHA c.to_bytes := by
    rw [Cid.toText, hver]
    rfl
  have hencne : bitsEncode 4 B32L_ALPHA c.to_bytes ≠ [] :=
    bitsEncode_ne_nil B32L_ALPHA c.to_bytes htbne
  have hslash : ∀ ch ∈ c.toText, ch ≠ '/' := by
    intro ch hch
    rw [htext] at hch
    rcases List.mem_cons.mp hch with hch | hch
    · subst hch
      decide
    · have hmem := bitsEncode_mem B32L_ALPHA b32_length c.to_bytes ch hch
      intro hcon
      subst hcon
      revert hmem
      decide
  have hstrip : stripIpfs c.toText = c.toText := by
    rw [stripIpfs, findIpfs_none c.toText hslash]
  have hv0s : Version.isV0Str c.toText = false := by
    rw [htext, Version.isV0Str]
    have htake : (('b' :: bitsEncode 4 B32L_ALPHA c.to_bytes).take 2 ==
        ['Q', 'm']) = false := by
      rw [List.take_succ_cons]
      apply beq_eq_false_iff_ne.mpr
      intro hcon
      have hbq : 'b' = 'Q' := by injection hcon
      exact absurd hbq (by decide)
    rw [htake, Bool.and_false]
  have hlen2 : ¬c.toText.length < 2 := by
    rw [htext, List.length_cons]
    have := List.length_pos.mpr hencne
    omega
  simp only [Cid.tryFromStr]
  rw [hstrip, if_neg hlen2,
    if_neg (by rw [hv0s]; exact Bool.false_ne_true), htext]
  rw [multibaseDecode]
  have hbc : baseFromCode 'b' = some Base.base32Lower := by decide
  rw [hbc]
  dsimp only
  have hdec : baseDecodeData Base.base32Lower
      (bitsEncode 4 B32L_ALPHA c.to_bytes) = .ok c.to_bytes :=
    bits_roundtrip B32L_ALPHA b32_length
      (fun d hd => b32_lookup d (by rw [b32_length] at hd; exact hd))
      c.to_bytes hbytes
  rw [hdec]
  dsimp only
  exact read_write_roundtrip S c h
    (fun hv0 => by rw [hver] at hv0; cases hv0)

theorem tryFromStr_toText_v0 (S : Nat) (c : Cid) (h : c.Valid S)
    (hver : c.version = .v0) (hd32 : c.hash.digest.length = 32) :
    Cid.tryFromStr S c.toText = some (.ok c) := by
  obtain ⟨hcodec, hcode, hfitS, hlenlt, hdig, hv0inv⟩ := h
  obtain ⟨hc70, hc12⟩ := hv0inv hver
  have hmh : c.hash.toBytes = 0x12 :: 0x20 :: c.hash.digest := by
    rw [Multihash.toBytes, hc12, hd32]
    rfl
  have htext : c.toText =
      bignumEncode B58BTC_ALPHA (0x12 :: 0x20 :: c.hash.digest) := by
    rw [Cid.toText, hver]
    show c.to_string_v0 = _
    rw [Cid.to_string_v0]
    show bignumEncode B58BTC_ALPHA c.hash.toBytes = _
    rw [hmh]
  have hqm : Version.isV0Str c.toText = true := by
    rw [htext]
    exact isV0Str_b58_encode c.hash.digest hd32 hdig
  have hlen46 : c.toText.length = 46 := by
    rw [Version.isV0Str] at hqm
    have hand := (Bool.and_eq_true _ _).mp hqm
    have hb46 := hand.1
    rw [beq_iff_eq] at hb46
    exact hb46
  have hslash : ∀ ch ∈ c.toText, ch ≠ '/' := by
    intro ch hch
    rw [htext] at hch
    have hmem := bignumEncode_mem B58BTC_ALPHA (by rw [b58_length]; omega)
      (0x12 :: 0x20 :: c.hash.digest) ch hch
    intro hcon
    subst hcon
    revert hmem
    decide
  have hstrip : stripIpfs c.toText = c.toText := by
    rw [stripIpfs, findIpfs_none c.toText hslash]
  have hlen2 : ¬c.toText.length < 2 := by omega
  have hbytes : ∀ b ∈ (0x12 :: 0x20 :: c.hash.digest), b < 256 := by
    intro b hb
    rcases List.mem_cons.mp hb with hb | hb
    · omega
    · rcases List.mem_cons.mp hb with hb | hb
      · omega
      · exact hdig b hb
  simp only [Cid.tryFromStr]
  rw [hstrip, if_neg hlen2, if_pos hqm, htext]
  have hdec : baseDecodeData Base.base58Btc
      (bignumEncode B58BTC_ALPHA (0x12 :: 0x20 :: c.hash.digest)) =
      .ok (0x12 :: 0x20 :: c.hash.digest) := by
    show bignumDecode B58BTC_ALPHA
      (bignumEncode B58BTC_ALPHA (0x12 :: 0x20 :: c.hash.digest)) = _
    exact bignum_roundtrip B58BTC_ALPHA (by rw [b58_length]; omega)
      (by rw [b58_length]; omega)
      (fun d hd => b58_lookup d (by rw [b58_length] at hd; exact hd))
      (fun d hd hd0 => b58_nonzero_char d (by rw [b58_length] at hd; exact hd) hd0)
      (0x12 :: 0x20 :: c.hash.digest) hbytes
  rw [hdec]
  have hbseq : (0x12 :: 0x20 :: c.hash.digest) = c.to_bytes := by
    rw [to_bytes_v0 c hver, hmh]
  rw [hbseq]
  exact read_write_roundtrip S c
    ⟨hcodec, hcode, hfitS, hlenlt, hdig, fun _ => ⟨hc70, hc12⟩⟩
    (fun _ => hd32)

/-! ## Claim theorems -/

/-- C1 (corrected): decoding the binary encoding returns the original `Cid`
for every valid V1 value and for every valid V0 value whose digest is exactly
32 bytes long.  (As stated over all constructor-admitted values the claim
fails: see the counterexample, a V0 `Cid` with a SHA2-256 code but an empty
digest.) -/
theorem c1_binary_roundtrip (S : Nat) (c : Cid) (h : c.Valid S)
    (h32 : c.version = .v0 → c.hash.digest.length = 32) :
    Cid.tryFromBytes S c.to_bytes = some (.ok c) :=
  read_write_roundtrip S c h h32

/-- C1 witness: the amended round trip at the concrete doc-test V1 value. -/
theorem c1_binary_roundtrip_witness :
    Cid.Valid 64 fooV1 ∧ Cid.tryFromBytes 64 fooV1.to_bytes = some (.ok fooV1) :=
  ⟨by decide, c1_binary_roundtrip 64 fooV1 (by decide) (by decide)⟩

/-- C1 counterexample: a V0 `Cid` whose digest is admitted by `wrap` and
`new_v0` (SHA2-256 code, empty digest) does not survive the binary round
trip — its encoding `[0x12, 0x00]` fails to decode. -/
theorem c1_binary_roundtrip_cex :
    Multihash.wrap 64 SHA2_256 [] = .ok ⟨SHA2_256, []⟩ ∧
    Cid.new_v0 ⟨SHA2_256, []⟩ = .ok cexCid ∧
    Cid.tryFromBytes 64 cexCid.to_bytes = some (.error .varIntDecodeError) ∧
    Cid.tryFromBytes 64 cexCid.to_bytes ≠ some (.ok cexCid) := by decide

/-- C2 (corrected): parsing the default textual rendering returns the
original `Cid` for every valid V1 value and for every valid V0 value whose
digest is exactly 32 bytes long.  (As stated over all constructor-admitted
values the claim fails: see the counterexample, a V0 `Cid` with a SHA2-256
code but an empty digest, whose base58 rendering does not parse back.) -/
theorem c2_text_roundtrip (S : Nat) (c : Cid) (h : c.Valid S)
    (h32 : c.version = .v0 → c.hash.digest.length = 32) :
    Cid.tryFromStr S c.toText = some (.ok c) := by
  cases hver : c.version with
  | v0 => exact tryFromStr_toText_v0 S c h hver (h32 hver)
  | v1 => exact tryFromStr_toText_v1 S c h hver

/-- C2 witness: the text round trip at a concrete V0 value over a genuine
32-byte digest. -/
theorem c2_text_roundtrip_witness :
    Cid.Valid 64 fooV0 ∧ Cid.tryFromStr 64 fooV0.toText = some (.ok fooV0) :=
  ⟨by decide, c2_text_roundtrip 64 fooV0 (by decide) (by decide)⟩

/-- C2 counterexample: a V0 `Cid` with a SHA2-256 code but an empty digest is
admitted by `new_v0`, but its textual rendering fails to parse back. -/
theorem c2_text_roundtrip_cex :
    Cid.new_v0 ⟨SHA2_256, []⟩ = .ok cexCid ∧
    Cid.tryFromStr 64 cexCid.toText = some (.error .varIntDecodeError) ∧
    Cid.tryFromStr 64 cexCid.toText ≠ some (.ok cexCid) := by decide

/-- C3 (confirmed): the V0 structural invariant.  V0 construction with a
codec other than DAG-PB fails with `InvalidCidV0Codec`; V0 construction with
a digest whose code is not SHA2-256 fails with `InvalidCidV0Multihash` (via
`new_v0`, and via `new` once the codec check has passed); and every `Cid`
produced by the constructors or decoders that is V0 carries the DAG-PB codec
and a SHA2-256 container. -/
theorem c3_v0_invariant :
    (∀ codec hash, codec ≠ DAG_PB →
      Cid.new .v0 codec hash = .error .invalidCidV0Codec) ∧
    (∀ hash : Multihash, hash.code ≠ SHA2_256 →
      Cid.new_v0 hash = .error .invalidCidV0Multihash) ∧
    (∀ hash : Multihash, hash.code ≠ SHA2_256 →
      Cid.new .v0 DAG_PB hash = .error .invalidCidV0Multihash) ∧
    (∀ hash c, Cid.new_v0 hash = .ok c →
      c.version = .v0 ∧ c.codec = DAG_PB ∧ c.hash.code = SHA2_256) ∧
    (∀ v codec hash c, Cid.new v codec hash = .ok c → c.version = .v0 →
      c.codec = DAG_PB ∧ c.hash.code = SHA2_256) ∧
    (∀ S bs c, Cid.read_bytes S bs = some (.ok c) → c.version = .v0 →
      c.codec = DAG_PB ∧ c.hash.code = SHA2_256) ∧
    (∀ S s c, Cid.tryFromStr S s = some (.ok c) → c.version = .v0 →
      c.codec = DAG_PB ∧ c.hash.code = SHA2_256) := by
  refine ⟨?_, ?_, ?_, ?_, new_inv, read_bytes_v0_inv, tryFromStr_v0_inv⟩
  · intro codec hash h
    simp [Cid.new, h]
  · intro hash h
    simp [Cid.new_v0, h]
  · intro hash h
    simp [Cid.new, Cid.new_v0, h]
  · intro hash c hok
    obtain ⟨hc, hcode⟩ := new_v0_inv hash c hok
    subst hc
    exact ⟨rfl, rfl, hcode⟩

/-- C3 witness: the invariant applied at concrete inputs. -/
theorem c3_v0_invariant_witness :
    Cid.new .v0 0x71 ⟨SHA2_256, []⟩ = .error .invalidCidV0Codec ∧
    Cid.new_v0 ⟨0x13, []⟩ = .error .invalidCidV0Multihash ∧
    Cid.new .v0 DAG_PB ⟨0x13, []⟩ = .error .invalidCidV0Multihash ∧
    (fooV0.codec = DAG_PB ∧ fooV0.hash.code = SHA2_256) :=
  ⟨c3_v0_invariant.1 0x71 ⟨SHA2_256, []⟩ (by decide),
   c3_v0_invariant.2.1 ⟨0x13, []⟩ (by decide),
   c3_v0_invariant.2.2.1 ⟨0x13, []⟩ (by decide),
   c3_v0_invariant.2.2.2.2.2.1 64 fooV0.to_bytes fooV0 (by decide) (by decide)⟩

/-- C4 (confirmed): any input whose first two decoded varints are exactly
`0x12` and `0x20` with at least 32 further bytes decodes as the legacy V0
`Cid` wrapping the next 32 raw bytes (for a size bound of at least 32, the
setting in which the `expect` cannot fire; C10 settles smaller bounds). -/
theorem c4_legacy_precedence (S : Nat) (input r1 r2 : List Nat)
    (hS : 32 ≤ S)
    (h1 : varintRead input = .ok (0x12, r1))
    (h2 : varintRead r1 = .ok (0x20, r2))
    (hlen : 32 ≤ r2.length) :
    Cid.read_bytes S input =
      some (.ok ⟨.v0, DAG_PB, ⟨SHA2_256, r2.take 32⟩⟩) ∧
    (r2.take 32).length = 32 := by
  constructor
  · unfold Cid.read_bytes
    rw [h1]
    dsimp only
    rw [h2]
    dsimp only
    rw [if_pos ⟨rfl, rfl⟩, readExact, if_pos hlen]
    dsimp only
    unfold Multihash.wrap
    rw [if_pos (by rw [List.length_take]; omega)]
    dsimp only
    unfold Cid.new_v0
    rw [if_neg (fun h => h rfl)]
    rfl
  · rw [List.length_take]
    omega

/-- C4 witness: the legacy decode at a concrete 34-byte input. -/
theorem c4_legacy_precedence_witness :
    Cid.read_bytes 64 legacyInput =
      some (.ok ⟨.v0, DAG_PB, ⟨SHA2_256, (List.replicate 32 0xab).take 32⟩⟩) ∧
    ((List.replicate 32 0xab).take 32).length = 32 :=
  c4_legacy_precedence 64 legacyInput (0x20 :: List.replicate 32 0xab)
    (List.replicate 32 0xab) (by decide) (by decide) (by decide) (by decide)

/-- C5 (corrected): when the first varint is outside `{0, 1}` and the pair is
not the legacy prefix, `read_bytes` fails with `VarIntDecodeError` — not with
`InvalidCidVersion` as the claim states: the code discards the version
model's error and substitutes `VarIntDecodeError`. -/
theorem c5_invalid_version (S : Nat) (input r1 r2 : List Nat) (v cdc : Nat)
    (h1 : varintRead input = .ok (v, r1))
    (h2 : varintRead r1 = .ok (cdc, r2))
    (hleg : ¬(v = 0x12 ∧ cdc = 0x20)) (h0 : v ≠ 0) (hone : v ≠ 1) :
    Cid.read_bytes S input = some (.error .varIntDecodeError) := by
  unfold Cid.read_bytes
  rw [h1]
  dsimp only
  rw [h2]
  dsimp only
  rw [if_neg hleg]
  unfold Version.fromCode
  rw [if_neg h0, if_neg hone]

/-- C5 witness: the amended classification at a concrete input with version
varint 5. -/
theorem c5_invalid_version_witness :
    Cid.read_bytes 64 [5, 0x70] = some (.error .varIntDecodeError) :=
  c5_invalid_version 64 [5, 0x70] [0x70] [] 5 0x70 (by decide) (by decide)
    (by decide) (by decide) (by decide)

/-- C5 counterexample: a buffer carrying a syntactically valid varint
version 5 fails with `VarIntDecodeError`, not with the `InvalidCidVersion`
classification the claim names. -/
theorem c5_invalid_version_cex :
    varintRead [5, 0x70] = .ok (5, [0x70]) ∧
    varintRead [0x70] = .ok (0x70, ([] : List Nat)) ∧
    Cid.read_bytes 64 [5, 0x70] = some (.error .varIntDecodeError) ∧
    Cid.read_bytes 64 [5, 0x70] ≠ some (.error .invalidCidVersion) := by decide

/-- C6 (corrected): only the legacy base58 decode failure is classified as
`ParsingError`; a multibase decode failure and a digest-container read
failure are both classified as `VarIntDecodeError`, contrary to the claim. -/
theorem c6_error_classification :
    (∀ S s, ¬(stripIpfs s).length < 2 →
      Version.isV0Str (stripIpfs s) = true →
      baseDecodeData .base58Btc (stripIpfs s) = .error () →
      Cid.tryFromStr S s = some (.error .parsingError)) ∧
    (∀ S s, ¬(stripIpfs s).length < 2 →
      Version.isV0Str (stripIpfs s) = false →
      multibaseDecode (stripIpfs s) = .error () →
      Cid.tryFromStr S s = some (.error .varIntDecodeError)) ∧
    (∀ S input r1 r2 v cdc ver, varintRead input = .ok (v, r1) →
      varintRead r1 = .ok (cdc, r2) → ¬(v = 0x12 ∧ cdc = 0x20) →
      Version.fromCode v = .ok ver → Multihash.read S r2 = .error () →
      Cid.read_bytes S input = some (.error .varIntDecodeError)) := by
  refine ⟨?_, ?_, ?_⟩
  · intro S s hlen hv0 hb58
    simp only [Cid.tryFromStr]
    rw [if_neg hlen, if_pos hv0, hb58]
  · intro S s hlen hv0 hmb
    simp only [Cid.tryFromStr]
    rw [if_neg hlen, if_neg (by simp [hv0]), hmb]
  · intro S input r1 r2 v cdc ver h1 h2 hleg hver hmh
    unfold Cid.read_bytes
    rw [h1]
    dsimp only
    rw [h2]
    dsimp only
    rw [if_neg hleg, hver]
    dsimp only
    rw [hmh]

/-- C6 witness: the three classifications at concrete inputs. -/
theorem c6_error_classification_witness :
    Cid.tryFromStr 64 badB58Text = some (.error .parsingError) ∧
    Cid.tryFromStr 64 ['?', '?'] = some (.error .varIntDecodeError) ∧
    Cid.read_bytes 64 [1, 0x70] = some (.error .varIntDecodeError) :=
  ⟨c6_error_classification.1 64 badB58Text (by decide) (by decide) (by decide),
   c6_error_classification.2.1 64 ['?', '?'] (by decide) (by decide) (by decide),
   c6_error_classification.2.2 64 [1, 0x70] [0x70] [] 1 0x70 .v1 (by decide)
     (by decide) (by decide) (by decide) (by decide)⟩

/-- C6 counterexample: a multibase decode failure and a digest-container read
failure are classified as `VarIntDecodeError`, not as the `ParsingError` the
claim names. -/
theorem c6_error_classification_cex :
    multibaseDecode ['?', '?'] = .error () ∧
    Cid.tryFromStr 64 ['?', '?'] ≠ some (.error .parsingError) ∧
    Multihash.read 64 ([] : List Nat) = .error () ∧
    Cid.read_bytes 64 [1, 0x70] ≠ some (.error .parsingError) := by decide

/-- C7 (confirmed): `to_string_of_base` on a V0 `Cid` succeeds exactly for
base58-BTC, returning the legacy rendering, and fails with
`InvalidCidV0Base` for every other base; on a V1 `Cid` it succeeds for every
base, applying the requested multibase encoding to the full binary form. -/
theorem c7_base_restriction (c : Cid) (base : Base) :
    (c.version = .v0 → base = .base58Btc →
      c.to_string_of_base base = .ok c.to_string_v0) ∧
    (c.version = .v0 → base ≠ .base58Btc →
      c.to_string_of_base base = .error .invalidCidV0Base) ∧
    (c.version = .v1 →
      c.to_string_of_base base = .ok (multibaseEncode base c.to_bytes)) := by
  refine ⟨?_, ?_, ?_⟩
  · intro hv hb
    unfold Cid.to_string_of_base
    rw [hv]
    dsimp only
    rw [if_pos hb]
  · intro hv hb
    unfold Cid.to_string_of_base
    rw [hv]
    dsimp only
    rw [if_neg hb]
  · intro hv
    unfold Cid.to_string_of_base
    rw [hv]

/-- C7 witness: the base restriction at concrete V0 and V1 values. -/
theorem c7_base_restriction_witness :
    fooV0.to_string_of_base .base58Btc = .ok fooV0.to_string_v0 ∧
    fooV0.to_string_of_base .base64 = .error .invalidCidV0Base ∧
    fooV1.to_string_of_base .base64 =
      .ok (multibaseEncode .base64 fooV1.to_bytes) :=
  ⟨(c7_base_restriction fooV0 .base58Btc).1 rfl rfl,
   (c7_base_restriction fooV0 .base64).2.1 rfl (by decide),
   (c7_base_restriction fooV1 .base64).2.2 rfl⟩

/-- C8 (corrected): prepending a prefix ending in `/ipfs/` preserves the
parse result, provided the prefix's trailing `/ipfs/` is the first
occurrence of `/ipfs/` in the combined text and the CID text itself contains
no `/ipfs/`.  (As stated over arbitrary prefixes the claim fails, because
`try_from` strips at the first occurrence: see the counterexample.) -/
theorem c8_gateway_tolerance (S : Nat) (p s : List Char)
    (_hend : ∃ p0, p = p0 ++ IPFS_DELIMITER)
    (hs : findIpfs s = none)
    (hp : findIpfs (p ++ s) = some s) :
    Cid.tryFromStr S (p ++ s) = Cid.tryFromStr S s := by
  simp only [Cid.tryFromStr, stripIpfs, hs, hp]

/-- C8 witness: the preserved parse at the concrete prefix `/ipfs/` on a
concrete V1 text. -/
theorem c8_gateway_tolerance_witness :
    Cid.tryFromStr 64 (IPFS_DELIMITER ++ sampleText) =
      Cid.tryFromStr 64 sampleText :=
  c8_gateway_tolerance 64 IPFS_DELIMITER sampleText ⟨[], rfl⟩ (by decide)
    (by decide)

/-- C8 counterexample: `sampleText` parses to a `Cid`, but prepending the
prefix `/ipfs/x/ipfs/` — which ends in `/ipfs/` — changes the result, because
stripping happens at the first `/ipfs/` occurrence. -/
theorem c8_gateway_tolerance_cex :
    Cid.tryFromStr 64 sampleText = some (.ok sampleCid) ∧
    Cid.tryFromStr 64 (adverseGateway ++ sampleText) =
      some (.error .varIntDecodeError) ∧
    Cid.tryFromStr 64 (adverseGateway ++ sampleText) ≠
      Cid.tryFromStr 64 sampleText := by decide

/-- C9 (confirmed): the write path applied to a fresh in-memory buffer
succeeds for every `Cid`, so the `unwrap` inside `to_bytes` is unreachable
and `to_bytes` is total. -/
theorem c9_to_bytes_total (c : Cid) :
    c.write_bytes [] = .ok c.to_bytes := by
  cases hv : c.version <;>
    simp [Cid.write_bytes, Cid.to_bytes, Cid.write_bytes_v1, Multihash.write,
      writeAll, hv]

/-- C10 (confirmed): with a size bound of at least 32 bytes the legacy
`expect` can never fire and `read_bytes` returns a result on every input;
with a smaller size bound, every input in the legacy shape makes `read_bytes`
panic (modelled as `none`) instead of returning an error. -/
theorem c10_wrap_size_bound :
    (∀ S input, 32 ≤ S → (Cid.read_bytes S input).isSome = true) ∧
    (∀ S input r1 r2, S < 32 → varintRead input = .ok (0x12, r1) →
      varintRead r1 = .ok (0x20, r2) → 32 ≤ r2.length →
      Cid.read_bytes S input = none) := by
  constructor
  · intro S input hS
    unfold Cid.read_bytes
    cases h1 : varintRead input with
    | error e => rfl
    | ok p =>
      obtain ⟨v, r1⟩ := p
      dsimp only
      cases h2 : varintRead r1 with
      | error e => rfl
      | ok q =>
        obtain ⟨cdc, r2⟩ := q
        dsimp only
        by_cases hleg : v = 0x12 ∧ cdc = 0x20
        · rw [if_pos hleg]
          cases h3 : readExact 32 r2 with
          | error e => rfl
          | ok dr =>
            obtain ⟨digest, rest⟩ := dr
            dsimp only
            have hd32 : digest.length = 32 := readExact_ok_len _ _ _ _ h3
            cases h4 : Multihash.wrap S v digest with
            | error e =>
              exfalso
              unfold Multihash.wrap at h4
              rw [if_pos (by omega)] at h4
              cases h4
            | ok mh => rfl
        · rw [if_neg hleg]
          cases h5 : Version.fromCode v with
          | error e => rfl
          | ok ver =>
            dsimp only
            cases h6 : Multihash.read S r2 with
            | error e => rfl
            | ok mr =>
              obtain ⟨mh, rest⟩ := mr
              rfl
  · intro S input r1 r2 hS h1 h2 hlen
    unfold Cid.read_bytes
    rw [h1]
    dsimp only
    rw [h2]
    dsimp only
    rw [if_pos ⟨rfl, rfl⟩, readExact, if_pos hlen]
    dsimp only
    unfold Multihash.wrap
    rw [if_neg (by rw [List.length_take]; omega)]

/-- C10 witness: totality at size bound 64 on a concrete input, and the
panic at size bound 16 on a concrete legacy-shaped input. -/
theorem c10_wrap_size_bound_witness :
    (Cid.read_bytes 64 ([] : List Nat)).isSome = true ∧
    Cid.read_bytes 16 legacyInput = none :=
  ⟨c10_wrap_size_bound.1 64 [] (by decide),
   c10_wrap_size_bound.2 16 legacyInput (0x20 :: List.replicate 32 0xab)
     (List.replicate 32 0xab) (by decide) (by decide) (by decide) (by decide)⟩

end SpCid
